import Mathlib

set_option maxRecDepth 100000

/-!
# ZitiCore: layout of the shared shader types (`ZitiCore/Shaders/InstanceTypes.h`)

The header is compiled twice: once by the host C/C++ compiler (where
`__METAL__` is undefined and the header itself supplies `packed_float3`,
`packed_int3` and `uint`), and once by the Metal shader compiler (where those
names are native types).  The development below embeds the declarations of the
header as data, processes them in each of the two compilation contexts with
the natural-alignment struct layout rule, and proves the layout properties of
the four shared structs.

Struct values are lists of scalar values, one per scalar component of the
layout; their memory image is a list of bytes.  A `float` is its binary32 bit
pattern, and the one arithmetic operation the properties need, the binary32
subtraction that decrements `AParticle.lifetime` by `ParticleContext.time_delta`,
is defined on bit patterns with round to nearest, ties to even.

The file has two parts: all definitions first, then the theorems.
-/

namespace ZitiCore

/-! ## Declarations of the header, as data -/

/-- The scalar kinds the header's fields bottom out in: C `float`, `int`, `unsigned`. -/
inductive Scalar
  | float
  | int
  | unsigned
  deriving DecidableEq, Repr

/-- Every type name that occurs in the header, spelled as in the source. -/
inductive TypeName
  | float
  | int
  | unsigned
  | uint
  | packed_float2
  | packed_float3
  | packed_int3
  | ParticleVertex
  | InstanceDescriptor
  | ParticleContext
  | AParticle
  deriving DecidableEq, Repr

/-- One member declaration `ty name;`. -/
structure Field where
  ty : TypeName
  name : String
  deriving DecidableEq, Repr

/-- The three declaration forms the header uses. -/
inductive Decl
  /-- Form `typedef struct { fields } name;`. -/
  | typedefStruct (fields : List Field) (name : TypeName)
  /-- Form `typedef target name;`. -/
  | typedefAlias (target : TypeName) (name : TypeName)
  /-- Form `struct name { fields };`. -/
  | struct (name : TypeName) (fields : List Field)
  deriving DecidableEq, Repr

/-- The two compilers that process the header. `host` has `__METAL__` undefined,
`metal` has it defined. -/
inductive Context
  | host
  | metal
  deriving DecidableEq, Repr

/-- Lines 12-16: the block under `#ifndef __METAL__`. -/
def shim : List Decl :=
  [ .typedefStruct [⟨.float, "x"⟩, ⟨.float, "y"⟩, ⟨.float, "z"⟩] .packed_float3,
    .typedefStruct [⟨.int, "x"⟩, ⟨.int, "y"⟩, ⟨.int, "z"⟩] .packed_int3,
    .typedefAlias .unsigned .uint ]

/-- Lines 22-26. -/
def ParticleVertex : Decl :=
  .struct .ParticleVertex
    [ ⟨.packed_float3, "position"⟩,
      ⟨.packed_float3, "normal"⟩,
      ⟨.packed_float2, "uv"⟩ ]

/-- Lines 29-33. -/
def InstanceDescriptor : Decl :=
  .struct .InstanceDescriptor
    [ ⟨.uint, "instance_count"⟩,
      ⟨.uint, "in_vertex_count"⟩,
      ⟨.uint, "in_index_count"⟩ ]

/-- Lines 36-58. -/
def ParticleContext : Decl :=
  .struct .ParticleContext
    [ ⟨.float, "advect_multiplier"⟩,
      ⟨.float, "time_delta"⟩,
      ⟨.float, "max_lifetime"⟩,
      ⟨.packed_float3, "bb_min"⟩,
      ⟨.packed_float3, "bb_max"⟩,
      ⟨.packed_int3, "vfield_dim"⟩,
      ⟨.unsigned, "number_particles"⟩,
      ⟨.unsigned, "spawn_range_start"⟩,
      ⟨.unsigned, "spawn_range_count"⟩,
      ⟨.packed_float3, "spawn_at"⟩,
      ⟨.float, "spawn_at_radius"⟩ ]

/-- Lines 60-63. -/
def AParticle : Decl :=
  .struct .AParticle
    [ ⟨.packed_float3, "position"⟩,
      ⟨.float, "lifetime"⟩ ]

/-- The header after preprocessing in a context: the shim is present exactly
when `__METAL__` is undefined. -/
def header : Context → List Decl
  | .host => shim ++ [ParticleVertex, InstanceDescriptor, ParticleContext, AParticle]
  | .metal => [ParticleVertex, InstanceDescriptor, ParticleContext, AParticle]

/-- The four structs shared between host and shader. -/
def sharedStructs : List TypeName :=
  [.ParticleVertex, .InstanceDescriptor, .ParticleContext, .AParticle]

/-! ## Layout rule -/

/-- A direct member of a laid-out struct. -/
structure Member where
  name : String
  ty : TypeName
  offset : Nat
  size : Nat
  deriving DecidableEq, Repr

/-- What a compiler knows about a complete type: `sizeof`, `alignof`, the
scalar components with their byte offsets from the start of the object, and
(for a struct) the direct members. -/
structure TypeInfo where
  size : Nat
  align : Nat
  scalars : List (Scalar × Nat)
  members : List Member
  deriving DecidableEq, Repr

/-- Types known so far, most recent first. -/
abbrev Env := List (TypeName × TypeInfo)

/-- Both targets use 4-byte `float`, `int` and `unsigned`, each 4-aligned. -/
def scalarSize : Scalar → Nat
  | .float => 4
  | .int => 4
  | .unsigned => 4

/-- A scalar is aligned to its size. -/
def scalarAlign (k : Scalar) : Nat := scalarSize k

/-- A builtin scalar type. -/
def scalarInfo (k : Scalar) : TypeInfo :=
  ⟨scalarSize k, scalarAlign k, [(k, 0)], []⟩

/-- A native packed vector of `n` scalars: elements back to back, aligned as one element. -/
def packedVecInfo (k : Scalar) (n : Nat) : TypeInfo :=
  ⟨n * scalarSize k, scalarAlign k, (List.range n).map (fun i => (k, i * scalarSize k)), []⟩

/-- Types that exist before the header's own declarations are read.
On the host these are the C scalars and `packed_float2`, which comes from
`<simd/simd.h>` (line 10) as a 4-aligned pair of floats. In the shader compiler
`uint`, `packed_float2`, `packed_float3` and `packed_int3` are native. -/
def builtins : Context → Env
  | .host =>
    [ (.float, scalarInfo .float),
      (.int, scalarInfo .int),
      (.unsigned, scalarInfo .unsigned),
      (.packed_float2, packedVecInfo .float 2) ]
  | .metal =>
    [ (.float, scalarInfo .float),
      (.int, scalarInfo .int),
      (.unsigned, scalarInfo .unsigned),
      (.uint, scalarInfo .unsigned),
      (.packed_float2, packedVecInfo .float 2),
      (.packed_float3, packedVecInfo .float 3),
      (.packed_int3, packedVecInfo .int 3) ]

/-- Round `off` up to the next multiple of `a`. -/
def alignUp (off a : Nat) : Nat := (off + a - 1) / a * a

/-- Natural-alignment layout of a member list: each member goes to the first
offset at or after the running end that is a multiple of its alignment; the
struct is aligned as its strictest member and its size is the end of the last
member rounded up to that alignment. -/
def layoutFields (env : Env) : List Field → Nat → Nat → List (Scalar × Nat) → List Member →
    Option TypeInfo
  | [], off, al, ss, ms => some ⟨alignUp off al, al, ss, ms⟩
  | f :: fs, off, al, ss, ms =>
    match env.lookup f.ty with
    | none => none
    | some ti =>
      let o := alignUp off ti.align
      layoutFields env fs (o + ti.size) (max al ti.align)
        (ss ++ ti.scalars.map (fun p => (p.1, o + p.2)))
        (ms ++ [⟨f.name, f.ty, o, ti.size⟩])

/-- Layout of a struct body. -/
def layoutStruct (env : Env) (fields : List Field) : Option TypeInfo :=
  layoutFields env fields 0 1 [] []

/-- Process one declaration, extending the environment; `none` when a member
type is not known at that point. -/
def declare (env : Env) : Decl → Option Env
  | .typedefStruct fields name => (layoutStruct env fields).map (fun ti => (name, ti) :: env)
  | .typedefAlias target name => (env.lookup target).map (fun ti => (name, ti) :: env)
  | .struct name fields => (layoutStruct env fields).map (fun ti => (name, ti) :: env)

/-- Process declarations in order. -/
def processDecls : Env → List Decl → Option Env
  | env, [] => some env
  | env, d :: ds => (declare env d).bind (fun env1 => processDecls env1 ds)

/-- The environment after the whole header has been compiled in a context. -/
def compile (c : Context) : Option Env := processDecls (builtins c) (header c)

/-- Everything the compiler of context `c` knows about type `t` after the header. -/
def typeInfo (c : Context) (t : TypeName) : Option TypeInfo :=
  (compile c).bind (fun env => env.lookup t)

/-- Value of `sizeof(t)` in context `c`. -/
def sizeof (c : Context) (t : TypeName) : Option Nat := (typeInfo c t).map (·.size)

/-- Value of `alignof(t)` in context `c`. -/
def alignof (c : Context) (t : TypeName) : Option Nat := (typeInfo c t).map (·.align)

/-- Value of `offsetof(t, name)` in context `c`. -/
def offsetof (c : Context) (t : TypeName) (name : String) : Option Nat :=
  (typeInfo c t).bind (fun ti => (ti.members.find? (fun m => m.name == name)).map (·.offset))

/-- The member list of struct `t` as written in the header seen by context `c`. -/
def fieldsOf (c : Context) (t : TypeName) : List Field :=
  ((header c).filterMap (fun d =>
    match d with
    | .struct n fs => if n = t then some fs else none
    | _ => none)).headD []

/-- Running sums: position `i` holds the sum of the first `i` entries. -/
def runningSums : List Nat → Nat → List Nat
  | [], _ => []
  | x :: xs, acc => acc :: runningSums xs (acc + x)

/-- End of the last byte any member occupies (the size before tail padding). -/
def dataEnd (ti : TypeInfo) : Nat :=
  (ti.members.map (fun m => m.offset + m.size)).foldl max 0

/-- Start of element `i` of an array: element 0 at 0, each next element at the
first suitably aligned byte after the data of the previous one. -/
def elemOffset (ti : TypeInfo) : Nat → Nat
  | 0 => 0
  | i + 1 => alignUp (elemOffset ti i + dataEnd ti) ti.align

/-- Sizes of the members of struct `t`, in declared order. -/
def fieldSizes (c : Context) (t : TypeName) : Option (List Nat) :=
  (fieldsOf c t).mapM (fun f => sizeof c f.ty)

/-- Byte offsets of the members of struct `t`, in declared order. -/
def fieldOffsets (c : Context) (t : TypeName) : Option (List Nat) :=
  (fieldsOf c t).mapM (fun f => offsetof c t f.name)

/-! ## The data model of the specification (section 3), for comparison -/

/-- Semantic scalar types the data model uses. -/
inductive SemType
  | float32
  | int32
  | uint32
  deriving DecidableEq, Repr

/-- One field of the data model: `count` components of type `elem`. -/
structure SpecField where
  name : String
  count : Nat
  elem : SemType
  deriving DecidableEq, Repr

/-- The field tables of section 3, row by row. -/
def specModel : TypeName → List SpecField
  | .ParticleVertex =>
    [ ⟨"position", 3, .float32⟩, ⟨"normal", 3, .float32⟩, ⟨"uv", 2, .float32⟩ ]
  | .InstanceDescriptor =>
    [ ⟨"instance_count", 1, .uint32⟩, ⟨"in_vertex_count", 1, .uint32⟩,
      ⟨"in_index_count", 1, .uint32⟩ ]
  | .ParticleContext =>
    [ ⟨"advect_multiplier", 1, .float32⟩, ⟨"time_delta", 1, .float32⟩,
      ⟨"max_lifetime", 1, .float32⟩,
      ⟨"bb_min", 3, .float32⟩, ⟨"bb_max", 3, .float32⟩,
      ⟨"vfield_dim", 3, .int32⟩,
      ⟨"number_particles", 1, .uint32⟩, ⟨"spawn_range_start", 1, .uint32⟩,
      ⟨"spawn_range_count", 1, .uint32⟩,
      ⟨"spawn_at", 3, .float32⟩,
      ⟨"spawn_at_radius", 1, .float32⟩ ]
  | .AParticle =>
    [ ⟨"position", 3, .float32⟩, ⟨"lifetime", 1, .float32⟩ ]
  | _ => []

/-- Semantic reading of a scalar kind of a given byte size, when it has one. -/
def semOfScalar (k : Scalar) : Option SemType :=
  if scalarSize k = 4 then
    some (match k with
      | .float => .float32
      | .int => .int32
      | .unsigned => .uint32)
  else none

/-- Semantic reading of a complete type: `n` components of one scalar kind. -/
def semOfType (ti : TypeInfo) : Option (Nat × SemType) :=
  match ti.scalars with
  | [] => none
  | (k, _) :: rest =>
    if rest.all (fun p => p.1 = k) then (semOfScalar k).map (fun e => (rest.length + 1, e))
    else none

/-- The field sequence of struct `t` as the compiler of context `c` sees it,
each member type read semantically. -/
def declaredModel (c : Context) (t : TypeName) : Option (List SpecField) :=
  (fieldsOf c t).mapM (fun f =>
    ((typeInfo c f.ty).bind semOfType).map (fun p => ⟨f.name, p.1, p.2⟩))

/-- The count and index fields of the header: every member declared `uint` or `unsigned`. -/
def countFields (c : Context) : List (TypeName × Field) :=
  sharedStructs.flatMap (fun s =>
    ((fieldsOf c s).filter (fun f => f.ty = .uint ∨ f.ty = .unsigned)).map (fun f => (s, f)))

/-! ## Values and their memory image -/

/-- A scalar value as it is held in a field. A `float` is identified with its
binary32 bit pattern: a transfer between host and device copies bytes and never
interprets them. -/
inductive Value
  | float (bits : Nat)
  | int (v : Int)
  | unsigned (v : Nat)
  deriving DecidableEq, Repr

/-- The scalar kind a value belongs to. -/
def Value.kind : Value → Scalar
  | .float _ => .float
  | .int _ => .int
  | .unsigned _ => .unsigned

/-- Number of value bits of a scalar kind. -/
def bitWidth (k : Scalar) : Nat := 8 * scalarSize k

/-- Range of a scalar: a bit pattern of the kind's width for `float`, a
two's-complement integer for `int`, a natural number below `2 ^ width` for `unsigned`. -/
def Value.inRange : Value → Prop
  | .float b => b < 2 ^ bitWidth .float
  | .int v => -(2 ^ (bitWidth .int - 1) : Int) ≤ v ∧ v < 2 ^ (bitWidth .int - 1)
  | .unsigned v => v < 2 ^ bitWidth .unsigned

instance (v : Value) : Decidable v.inRange :=
  match v with
  | .float b => inferInstanceAs (Decidable (b < 2 ^ bitWidth .float))
  | .int v => inferInstanceAs
      (Decidable (-(2 ^ (bitWidth .int - 1) : Int) ≤ v ∧ v < 2 ^ (bitWidth .int - 1)))
  | .unsigned v => inferInstanceAs (Decidable (v < 2 ^ bitWidth .unsigned))

/-- A value of struct type: one scalar value per scalar component, in layout
order, each of the component's kind and in range. -/
def WellTyped (scalars : List (Scalar × Nat)) (vs : List Value) : Prop :=
  List.Forall₂ (fun s v => v.kind = s.1 ∧ v.inRange) scalars vs

instance (ss : List (Scalar × Nat)) (vs : List Value) : Decidable (WellTyped ss vs) := by
  unfold WellTyped
  infer_instance

/-- The `n` low-order bytes of `x`, least significant first. -/
def leBytes : Nat → Nat → List Nat
  | 0, _ => []
  | n + 1, x => x % 256 :: leBytes n (x / 256)

/-- The number a little-endian byte string denotes. -/
def ofLeBytes : List Nat → Nat
  | [] => 0
  | b :: bs => b + 256 * ofLeBytes bs

/-- Object representation of a scalar value (both targets are little-endian). -/
def encode : Value → List Nat
  | .float b => leBytes (scalarSize .float) b
  | .int v => leBytes (scalarSize .int) (v % 2 ^ bitWidth .int).toNat
  | .unsigned v => leBytes (scalarSize .unsigned) v

/-- The value of kind `k` an object representation denotes. -/
def decode (k : Scalar) (bs : List Nat) : Value :=
  match k with
  | .float => .float (ofLeBytes bs)
  | .int =>
    let u := ofLeBytes bs
    .int (if u < 2 ^ (bitWidth .int - 1) then (u : Int) else (u : Int) - 2 ^ bitWidth .int)
  | .unsigned => .unsigned (ofLeBytes bs)

/-- Store bytes `bs` into `buf` starting at byte `off`, one byte at a time. -/
def storeBytes : List Nat → Nat → List Nat → List Nat
  | buf, _, [] => buf
  | buf, off, b :: bs => storeBytes (buf.set off b) (off + 1) bs

/-- Load `n` bytes of `buf` starting at byte `off`. -/
def loadBytes (buf : List Nat) (off n : Nat) : List Nat := (buf.drop off).take n

/-- Write the scalar values of a struct into `buf`, each at its component's offset,
in declared order. -/
def writeScalars : List (Scalar × Nat) → List Value → List Nat → List Nat
  | s :: ss, v :: vs, buf => writeScalars ss vs (storeBytes buf s.2 (encode v))
  | _, _, buf => buf

/-- Read the scalar values of a struct out of `buf`, each from its component's offset. -/
def readScalars (scalars : List (Scalar × Nat)) (buf : List Nat) : List Value :=
  scalars.map (fun s => decode s.1 (loadBytes buf s.2 (scalarSize s.1)))

/-- Scalar components of struct `t` in context `c` (empty if `t` is unknown). -/
def scalarsOf (c : Context) (t : TypeName) : List (Scalar × Nat) :=
  ((typeInfo c t).map (·.scalars)).getD []

/-- Write a struct value into a buffer with the layout of context `c`. -/
def writeStruct (c : Context) (t : TypeName) (vs : List Value) (buf : List Nat) : List Nat :=
  writeScalars (scalarsOf c t) vs buf

/-- Read a struct value out of a buffer with the layout of context `c`. -/
def readStruct (c : Context) (t : TypeName) (buf : List Nat) : List Value :=
  readScalars (scalarsOf c t) buf

/-- Position, among the scalar components of struct `t`, of the first component
of member `name`. -/
def fieldSlot (c : Context) (t : TypeName) (name : String) : Option Nat :=
  (typeInfo c t).bind (fun ti =>
    (ti.members.find? (fun m => m.name == name)).bind (fun m =>
      let i := ti.scalars.findIdx (fun p => p.2 == m.offset)
      if i < ti.scalars.length then some i else none))

/-- Value of a scalar member of a struct value. -/
def getField (c : Context) (t : TypeName) (name : String) (vs : List Value) : Option Value :=
  (fieldSlot c t name).bind (fun i => vs[i]?)

/-- The struct value with scalar member `name` replaced. -/
def setField (c : Context) (t : TypeName) (name : String) (v : Value) (vs : List Value) :
    List Value :=
  match fieldSlot c t name with
  | some i => vs.set i v
  | none => vs

/-- Value of an `unsigned` member. -/
def getUnsigned (c : Context) (t : TypeName) (name : String) (vs : List Value) : Option Nat :=
  match getField c t name vs with
  | some (.unsigned n) => some n
  | _ => none

/-- Bit pattern of a `float` member. -/
def getFloat (c : Context) (t : TypeName) (name : String) (vs : List Value) : Option Nat :=
  match getField c t name vs with
  | some (.float b) => some b
  | _ => none

/-- The relation section 3 lists as an invariant of `ParticleContext`, evaluated on
a struct value (false when a field is absent). -/
def spawnRangeInBounds (c : Context) (ctx : List Value) : Bool :=
  match getUnsigned c .ParticleContext "number_particles" ctx,
    getUnsigned c .ParticleContext "spawn_range_start" ctx,
    getUnsigned c .ParticleContext "spawn_range_count" ctx with
  | some n, some s, some k => decide (s + k ≤ n)
  | _, _, _ => false

/-! ## binary32 arithmetic on bit patterns

A `float` field holds an IEEE-754 binary32 number: bit 31 is the sign, bits
30-23 the biased exponent, bits 22-0 the fraction. Finite numbers are handled
exactly as integers in units of `2 ^ (-149)`, the spacing of the subnormals. -/

/-- Sign bit. -/
def signBit (b : Nat) : Nat := b / 2 ^ 31 % 2

/-- Biased exponent field. -/
def expoField (b : Nat) : Nat := b / 2 ^ 23 % 256

/-- Fraction field. -/
def fracField (b : Nat) : Nat := b % 2 ^ 23

/-- Not-a-number: exponent all ones, fraction non-zero. -/
def isNaN (b : Nat) : Bool := expoField b == 255 && fracField b != 0

/-- Infinity: exponent all ones, fraction zero. -/
def isInf (b : Nat) : Bool := expoField b == 255 && fracField b == 0

/-- Magnitude of a finite number in units of `2 ^ (-149)`. -/
def magnitude (b : Nat) : Nat :=
  if expoField b = 0 then fracField b else (2 ^ 23 + fracField b) * 2 ^ (expoField b - 1)

/-- Signed value of a finite number in units of `2 ^ (-149)`. -/
def scaled (b : Nat) : Int :=
  if signBit b = 1 then -(magnitude b : Int) else (magnitude b : Int)

/-- The canonical quiet NaN. -/
def quietNaN : Nat := 0x7FC00000

/-- Positive zero. -/
def posZero : Nat := 0

/-- Negative zero. -/
def negZero : Nat := 0x80000000

/-- The same number with the sign bit flipped. -/
def negate (b : Nat) : Nat := if signBit b = 1 then b - 2 ^ 31 else b + 2 ^ 31

/-- Number of low-order bits of `n` that do not fit into a 24-bit significand:
halve `n` until it is below `2 ^ 24`. The first argument bounds the number of
halvings and is always passed `n` itself, which is more than enough. -/
def excessBits : Nat → Nat → Nat
  | 0, _ => 0
  | fuel + 1, n => if n < 2 ^ 24 then 0 else excessBits fuel (n / 2) + 1

/-- Round a magnitude given in units of `2 ^ (-149)` to the nearest binary32
magnitude, ties to even; the result is the 31 low bits (exponent and fraction),
with overflow going to infinity. With `sh` excess bits the significand is
`n / 2 ^ sh` and the biased exponent `sh + 1`, so the bits are
`(sh + 1) * 2 ^ 23 + (significand - 2 ^ 23)`; a carry out of the significand
lands in the exponent. -/
def roundMag (n : Nat) : Nat :=
  let sh := excessBits n n
  let q := n / 2 ^ sh
  let r := n % 2 ^ sh
  let half := 2 ^ (sh - 1)
  let q1 := if half < r ∨ (r = half ∧ q % 2 = 1) then q + 1 else q
  let bits := sh * 2 ^ 23 + q1
  if 255 * 2 ^ 23 ≤ bits then 255 * 2 ^ 23 else bits

/-- Subtraction `a - b` of binary32 numbers, round to nearest, ties to even (the
rounding of both the host and the shader arithmetic). A NaN operand or
`inf - inf` gives the canonical quiet NaN; an exact zero difference is `+0`
unless it is `(-0) - (+0)`; otherwise the exact difference of the two scaled
integers is rounded. Subnormal operands and results are kept as they are
(gradual underflow). -/
def f32sub (a b : Nat) : Nat :=
  if isNaN a || isNaN b then quietNaN
  else if isInf a then (if isInf b && signBit a == signBit b then quietNaN else a)
  else if isInf b then negate b
  else
    let d : Int := scaled a - scaled b
    if d = 0 then (if signBit a = 1 ∧ signBit b = 0 then negZero else posZero)
    else if d < 0 then 2 ^ 31 + roundMag d.natAbs
    else roundMag d.natAbs

/-- Spacing of the binary32 numbers that share the exponent of `b` (one unit in
the last place), in units of `2 ^ (-149)`. -/
def ulp (b : Nat) : Nat := 2 ^ (expoField b - 1)

/-- Order key of a number that is not a NaN: the magnitude bits, negated when the
sign bit is set. Larger numbers have larger keys and both zeros have key 0. -/
def f32key (b : Nat) : Int :=
  if signBit b = 1 then -((b % 2 ^ 31 : Nat) : Int) else ((b % 2 ^ 31 : Nat) : Int)

/-- Comparison `a < b`; false when either side is a NaN. -/
def f32lt (a b : Nat) : Bool := !isNaN a && !isNaN b && decide (f32key a < f32key b)

/-- Comparison `a <= b`; false when either side is a NaN. -/
def f32le (a b : Nat) : Bool := !isNaN a && !isNaN b && decide (f32key a ≤ f32key b)

/-! ## Lifetime decay -/

/-- Modelled from the spec: the per-step update of a particle, which lives in the
advection kernel and not in this header. Section 3 and section 8 describe it:
`AParticle.lifetime` is decremented by `ParticleContext.time_delta` each step.
Both operands are the `float` fields the header declares, so the subtraction is
a binary32 subtraction. -/
def decayStep (ctx p : List Value) : List Value :=
  match getFloat .metal .ParticleContext "time_delta" ctx,
    getFloat .metal .AParticle "lifetime" p with
  | some d, some l => setField .metal .AParticle "lifetime" (.float (f32sub l d)) p
  | _, _ => p

/-- Modelled from the spec: the particle after `n` steps. -/
def decay (ctx p : List Value) : Nat → List Value
  | 0 => p
  | n + 1 => decayStep ctx (decay ctx p n)

/-- Modelled from the spec: a particle is dead when `lifetime <= 0`. -/
def isDead (p : List Value) : Bool :=
  match getFloat .metal .AParticle "lifetime" p with
  | some l => f32le l posZero
  | none => false

/-- Precondition `time_delta > 0` of the decay property. -/
def timeDeltaPositive (ctx : List Value) : Bool :=
  match getFloat .metal .ParticleContext "time_delta" ctx with
  | some d => f32lt posZero d
  | none => false

/-- Order key of a particle's lifetime (0 when the field is absent). -/
def lifeKey (p : List Value) : Int :=
  match getFloat .metal .AParticle "lifetime" p with
  | some l => f32key l
  | none => 0

/-- Comparison `q.lifetime < p.lifetime` of two particles. -/
def lifetimeLt (q p : List Value) : Bool :=
  match getFloat .metal .AParticle "lifetime" q, getFloat .metal .AParticle "lifetime" p with
  | some a, some b => f32lt a b
  | _, _ => false

/-! ## Sample values -/

/-- A `ParticleContext` value, scalar by scalar in declared order: the given
`time_delta`, `number_particles`, `spawn_range_start` and `spawn_range_count`,
a unit grid and zeros elsewhere. -/
def contextWith (timeDelta n s k : Nat) : List Value :=
  [ .float 0, .float timeDelta, .float 0,
    .float 0, .float 0, .float 0,
    .float 0, .float 0, .float 0,
    .int 1, .int 1, .int 1,
    .unsigned n, .unsigned s, .unsigned k,
    .float 0, .float 0, .float 0,
    .float 0 ]

/-- An `AParticle` value at the origin with the given `lifetime`. -/
def particleWith (lifetime : Nat) : List Value :=
  [ .float 0, .float 0, .float 0, .float lifetime ]

/-- Scalar components that tile memory from byte `base` on: each one starts
where the previous one ends. -/
def tiled : Nat → List (Scalar × Nat) → Bool
  | _, [] => true
  | base, s :: ss => s.2 == base && tiled (base + scalarSize s.1) ss

/-- Total number of bytes the scalar components occupy. -/
def scalarBytes (ss : List (Scalar × Nat)) : Nat := (ss.map (fun s => scalarSize s.1)).sum

/-! # Theorems -/

/-! ## Layout -/

/-- C1: for each of the four shared structs the host compilation (with the shim)
and the shader compilation (with the native types) compute the same complete
type: the same `sizeof`, the same alignment, the same member list, and the same
byte offset for every declared field and for every scalar component. -/
theorem host_metal_layout_agree (s : TypeName) (hs : s ∈ sharedStructs) :
    (typeInfo .host s).isSome ∧
    typeInfo .host s = typeInfo .metal s ∧
    sizeof .host s = sizeof .metal s ∧
    alignof .host s = alignof .metal s ∧
    fieldsOf .host s = fieldsOf .metal s ∧
    (∀ f ∈ fieldsOf .host s,
      (offsetof .host s f.name).isSome ∧ offsetof .host s f.name = offsetof .metal s f.name) ∧
    scalarsOf .host s = scalarsOf .metal s := by
  revert s
  decide

/-- Instance of C1 at `ParticleContext`, the largest of the four structs. -/
theorem host_metal_layout_agree_witness :
    TypeName.ParticleContext ∈ sharedStructs ∧
    ((typeInfo .host .ParticleContext).isSome ∧
    typeInfo .host .ParticleContext = typeInfo .metal .ParticleContext ∧
    sizeof .host .ParticleContext = sizeof .metal .ParticleContext ∧
    alignof .host .ParticleContext = alignof .metal .ParticleContext ∧
    fieldsOf .host .ParticleContext = fieldsOf .metal .ParticleContext ∧
    (∀ f ∈ fieldsOf .host .ParticleContext,
      (offsetof .host .ParticleContext f.name).isSome ∧
      offsetof .host .ParticleContext f.name = offsetof .metal .ParticleContext f.name) ∧
    scalarsOf .host .ParticleContext = scalarsOf .metal .ParticleContext) :=
  ⟨by decide, host_metal_layout_agree .ParticleContext (by decide)⟩

/-- C2: in either compilation context the natural-alignment rule inserts no padding
into any of the four structs: every declared field has a size and an offset, the
offset of each field is the sum of the sizes of the fields declared before it,
and `sizeof` of the struct is the sum of the sizes of all its fields. -/
theorem no_padding (c : Context) (s : TypeName) (hs : s ∈ sharedStructs) :
    (fieldSizes c s).isSome ∧
    (fieldsOf c s).length ≠ 0 ∧
    fieldOffsets c s = (fieldSizes c s).map (fun sizes => runningSums sizes 0) ∧
    sizeof c s = (fieldSizes c s).map List.sum := by
  revert s
  cases c <;> decide

/-- Instance of C2 at the host layout of `ParticleVertex`. -/
theorem no_padding_witness :
    TypeName.ParticleVertex ∈ sharedStructs ∧
    ((fieldSizes .host .ParticleVertex).isSome ∧
    (fieldsOf .host .ParticleVertex).length ≠ 0 ∧
    fieldOffsets .host .ParticleVertex =
      (fieldSizes .host .ParticleVertex).map (fun sizes => runningSums sizes 0) ∧
    sizeof .host .ParticleVertex = (fieldSizes .host .ParticleVertex).map List.sum) :=
  ⟨by decide, no_padding .host .ParticleVertex (by decide)⟩

/-- C3: the shim types of the host compilation are tightly packed. `packed_float3`
and `packed_int3` have size 12 and alignment 4 with members `x`, `y`, `z` at
offsets 0, 4, 8; `uint` is the 4-byte, 4-aligned `unsigned`; each of the three has
the size, alignment and scalar components of the shader compiler's native type
of the same name. -/
theorem shim_types_tightly_packed :
    typeInfo .host .packed_float3 =
      some ⟨12, 4, [(.float, 0), (.float, 4), (.float, 8)],
        [⟨"x", .float, 0, 4⟩, ⟨"y", .float, 4, 4⟩, ⟨"z", .float, 8, 4⟩]⟩ ∧
    typeInfo .host .packed_int3 =
      some ⟨12, 4, [(.int, 0), (.int, 4), (.int, 8)],
        [⟨"x", .int, 0, 4⟩, ⟨"y", .int, 4, 4⟩, ⟨"z", .int, 8, 4⟩]⟩ ∧
    typeInfo .host .uint = some ⟨4, 4, [(.unsigned, 0)], []⟩ ∧
    typeInfo .host .uint = typeInfo .host .unsigned ∧
    (∀ t ∈ [TypeName.packed_float3, TypeName.packed_int3, TypeName.uint],
      (sizeof .host t).isSome ∧
      sizeof .host t = sizeof .metal t ∧
      alignof .host t = alignof .metal t ∧
      scalarsOf .host t = scalarsOf .metal t) := by
  decide

/-- C4: in either compilation context the declared field sequence of each of the
four structs, with every member type read as a number of 32-bit components, is
the one the data model of the specification lists: same names, same order, same
component counts and component types. -/
theorem fields_match_data_model (c : Context) (s : TypeName) (hs : s ∈ sharedStructs) :
    declaredModel c s = some (specModel s) ∧ (specModel s).length ≠ 0 := by
  revert s
  cases c <;> decide

/-- Instance of C4 at the shader-side `ParticleContext`. -/
theorem fields_match_data_model_witness :
    TypeName.ParticleContext ∈ sharedStructs ∧
    (declaredModel .metal .ParticleContext = some (specModel .ParticleContext) ∧
    (specModel .ParticleContext).length ≠ 0) :=
  ⟨by decide, fields_match_data_model .metal .ParticleContext (by decide)⟩

/-! ## Arithmetic of the layout rule -/

theorem alignUp_of_dvd (x a : Nat) (ha : 0 < a) (h : x % a = 0) : alignUp x a = x := by
  unfold alignUp
  obtain ⟨k, rfl⟩ := Nat.dvd_of_mod_eq_zero h
  have h1 : (a * k + a - 1) / a = k := by
    have h2 : a * k + a - 1 = (a - 1) + a * k := by omega
    rw [h2, Nat.add_mul_div_left _ _ ha, Nat.div_eq_of_lt (by omega)]
    simp
  rw [h1, Nat.mul_comm]

theorem elemOffset_eq (ti : TypeInfo) (h1 : dataEnd ti = ti.size) (h2 : 0 < ti.align)
    (h3 : ti.size % ti.align = 0) (i : Nat) : elemOffset ti i = i * ti.size := by
  induction i with
  | zero => simp [elemOffset]
  | succ n ih =>
    have h4 : (n * ti.size + ti.size) % ti.align = 0 := by
      rw [Nat.add_mod, Nat.mul_mod, h3]
      simp
    rw [elemOffset, ih, h1, alignUp_of_dvd _ _ h2 h4, Nat.succ_mul]

theorem shared_struct_info (c : Context) (s : TypeName) (hs : s ∈ sharedStructs) :
    ∃ ti, typeInfo c s = some ti ∧ dataEnd ti = ti.size ∧ 0 < ti.align ∧
      ti.size % ti.align = 0 ∧ tiled 0 ti.scalars = true ∧ scalarBytes ti.scalars = ti.size := by
  have h : ∀ c, ∀ s ∈ sharedStructs,
      (typeInfo c s).map (fun ti => decide (dataEnd ti = ti.size ∧ 0 < ti.align ∧
        ti.size % ti.align = 0 ∧ tiled 0 ti.scalars = true ∧
        scalarBytes ti.scalars = ti.size)) = some true := by
    intro c
    cases c <;> decide
  have h1 := h c s hs
  cases hti : typeInfo c s with
  | none => rw [hti] at h1; simp at h1
  | some ti =>
    rw [hti] at h1
    simp only [Option.map_some', Option.some.injEq, decide_eq_true_eq] at h1
    exact ⟨ti, rfl, h1⟩

/-! ## Object representations -/

theorem leBytes_length (n x : Nat) : (leBytes n x).length = n := by
  induction n generalizing x with
  | zero => rfl
  | succ n ih => simp [leBytes, ih]

theorem ofLeBytes_leBytes (n x : Nat) : ofLeBytes (leBytes n x) = x % 256 ^ n := by
  induction n generalizing x with
  | zero => simp [leBytes, ofLeBytes, Nat.mod_one]
  | succ n ih =>
    simp only [leBytes, ofLeBytes, ih]
    rw [Nat.pow_succ, Nat.mul_comm (256 ^ n) 256, Nat.mod_mul]

theorem ofLeBytes_lt (bs : List Nat) (h : ∀ b ∈ bs, b < 256) :
    ofLeBytes bs < 256 ^ bs.length := by
  induction bs with
  | nil => simp [ofLeBytes]
  | cons b bs ih =>
    have hb : b < 256 := h b (by simp)
    have ht := ih (fun x hx => h x (by simp [hx]))
    simp only [ofLeBytes, List.length_cons, Nat.pow_succ]
    omega

theorem encode_length (v : Value) : (encode v).length = scalarSize v.kind := by
  cases v <;> simp [encode, Value.kind, leBytes_length]

theorem decode_encode (v : Value) (h : v.inRange) : decode v.kind (encode v) = v := by
  cases v with
  | float b =>
    simp only [Value.inRange, bitWidth, scalarSize] at h
    simp only [Value.kind, decode, encode, scalarSize, ofLeBytes_leBytes]
    rw [Nat.mod_eq_of_lt (by omega)]
  | int v =>
    simp only [Value.inRange, bitWidth, scalarSize] at h
    simp only [Value.kind, decode, encode, scalarSize, bitWidth, ofLeBytes_leBytes]
    congr 1
    split <;> omega
  | unsigned n =>
    simp only [Value.inRange, bitWidth, scalarSize] at h
    simp only [Value.kind, decode, encode, scalarSize, ofLeBytes_leBytes]
    rw [Nat.mod_eq_of_lt (by omega)]

theorem storeBytes_splice (bs : List Nat) :
    ∀ pre old post : List Nat, old.length = bs.length →
      storeBytes (pre ++ old ++ post) pre.length bs = pre ++ bs ++ post := by
  induction bs with
  | nil =>
    intro pre old post h
    have : old = [] := List.length_eq_zero.mp h
    simp [storeBytes, this]
  | cons b bs ih =>
    intro pre old post h
    cases old with
    | nil => simp at h
    | cons o old =>
      have h1 : old.length = bs.length := by simpa using h
      have h2 : (pre ++ o :: old ++ post).set pre.length b = (pre ++ [b]) ++ old ++ post := by
        simp [List.set_append]
      have h3 := ih (pre ++ [b]) old post h1
      simp only [List.length_append, List.length_singleton] at h3
      rw [storeBytes, h2, h3]
      simp

theorem loadBytes_splice (pre mid post : List Nat) :
    loadBytes (pre ++ mid ++ post) pre.length mid.length = mid := by
  simp [loadBytes, List.append_assoc]

theorem writeScalars_tiled (ss : List (Scalar × Nat)) :
    ∀ (vs : List Value) (pre mid post : List Nat),
      tiled pre.length ss = true → WellTyped ss vs → mid.length = scalarBytes ss →
      writeScalars ss vs (pre ++ mid ++ post) = pre ++ vs.flatMap encode ++ post := by
  induction ss with
  | nil =>
    intro vs pre mid post _ hv hm
    cases hv
    have : mid = [] := List.length_eq_zero.mp (by simpa [scalarBytes] using hm)
    simp [writeScalars, this]
  | cons s ss ih =>
    intro vs pre mid post ht hv hm
    cases hv with
    | cons hsv hrest =>
      rename_i v vs
      simp only [tiled, Bool.and_eq_true, beq_iff_eq] at ht
      have hlen : (encode v).length = scalarSize s.1 := by rw [encode_length, hsv.1]
      have hm1 : mid.length = scalarSize s.1 + scalarBytes ss := by
        simpa [scalarBytes] using hm
      have htake : (mid.take (scalarSize s.1)).length = (encode v).length := by
        rw [List.length_take, hlen]; omega
      have hdrop : (mid.drop (scalarSize s.1)).length = scalarBytes ss := by
        rw [List.length_drop]; omega
      have hstore : storeBytes (pre ++ mid ++ post) s.2 (encode v) =
          (pre ++ encode v) ++ mid.drop (scalarSize s.1) ++ post := by
        have e : pre ++ mid.take (scalarSize s.1) ++ (mid.drop (scalarSize s.1) ++ post) =
            pre ++ mid ++ post := by
          rw [List.append_assoc, ← List.append_assoc (mid.take _), List.take_append_drop,
            List.append_assoc]
        have := storeBytes_splice (encode v) pre (mid.take (scalarSize s.1))
          (mid.drop (scalarSize s.1) ++ post) htake
        rw [e] at this
        rw [ht.1, this]
        simp only [List.append_assoc]
      have ht2 : tiled (pre ++ encode v).length ss = true := by
        rw [List.length_append, hlen]; exact ht.2
      rw [writeScalars, hstore, ih vs (pre ++ encode v) _ post ht2 hrest hdrop]
      simp [List.flatMap_cons, List.append_assoc]

theorem readScalars_tiled (ss : List (Scalar × Nat)) :
    ∀ (vs : List Value) (pre post : List Nat),
      tiled pre.length ss = true → WellTyped ss vs →
      readScalars ss (pre ++ vs.flatMap encode ++ post) = vs := by
  induction ss with
  | nil =>
    intro vs pre post _ hv
    cases hv
    simp [readScalars]
  | cons s ss ih =>
    intro vs pre post ht hv
    cases hv with
    | cons hsv hrest =>
      rename_i v vs
      simp only [tiled, Bool.and_eq_true, beq_iff_eq] at ht
      have hlen : (encode v).length = scalarSize s.1 := by rw [encode_length, hsv.1]
      have hbuf : pre ++ (v :: vs).flatMap encode ++ post =
          (pre ++ encode v) ++ vs.flatMap encode ++ post := by
        simp [List.flatMap_cons, List.append_assoc]
      have hhead : loadBytes (pre ++ (v :: vs).flatMap encode ++ post) s.2 (scalarSize s.1) =
          encode v := by
        have := loadBytes_splice pre (encode v) (vs.flatMap encode ++ post)
        rw [ht.1, ← hlen]
        simpa [List.flatMap_cons, List.append_assoc] using this
      have ht2 : tiled (pre ++ encode v).length ss = true := by
        rw [List.length_append, hlen]; exact ht.2
      have htail := ih vs (pre ++ encode v) post ht2 hrest
      simp only [readScalars] at htail ⊢
      rw [List.map_cons, hhead, ← hsv.1, decode_encode v hsv.2, hbuf, htail]

theorem flatMap_encode_length (ss : List (Scalar × Nat)) (vs : List Value)
    (hv : WellTyped ss vs) : (vs.flatMap encode).length = scalarBytes ss := by
  induction hv with
  | nil => simp [scalarBytes]
  | cons hsv _ ih =>
    simp only [scalarBytes, List.map_cons, List.sum_cons] at ih ⊢
    simp [List.flatMap_cons, encode_length, hsv.1, ih]

/-- The image of a well-typed struct value under a tiled layout is the
concatenation of its scalar encodings, whatever the buffer held before. -/
theorem writeScalars_image (ss : List (Scalar × Nat)) (vs : List Value) (buf : List Nat)
    (ht : tiled 0 ss = true) (hv : WellTyped ss vs) (hb : buf.length = scalarBytes ss) :
    writeScalars ss vs buf = vs.flatMap encode := by
  have := writeScalars_tiled ss vs [] buf [] (by simpa using ht) hv hb
  simpa using this

theorem readScalars_image (ss : List (Scalar × Nat)) (vs : List Value)
    (ht : tiled 0 ss = true) (hv : WellTyped ss vs) :
    readScalars ss (vs.flatMap encode) = vs := by
  have := readScalars_tiled ss vs [] [] (by simpa using ht) hv
  simpa using this


theorem shared_typeInfo_eq (s : TypeName) (hs : s ∈ sharedStructs) :
    typeInfo .host s = typeInfo .metal s := by
  revert s
  decide

/-! ## Claims about values -/

/-- C5: the count and index fields are the three `uint` members of
`InstanceDescriptor` and the three `unsigned` members of `ParticleContext`, in
both compilation contexts; the type of each resolves, in both contexts, to the
same complete type: the `unsigned` scalar of size 4 and alignment 4. Its values
are exactly the naturals below `2 ^ 32`: each of them is recovered from its
4-byte image, and every 4-byte image denotes one of them. -/
theorem count_fields_uint32 :
    countFields .host =
      [ (.InstanceDescriptor, ⟨.uint, "instance_count"⟩),
        (.InstanceDescriptor, ⟨.uint, "in_vertex_count"⟩),
        (.InstanceDescriptor, ⟨.uint, "in_index_count"⟩),
        (.ParticleContext, ⟨.unsigned, "number_particles"⟩),
        (.ParticleContext, ⟨.unsigned, "spawn_range_start"⟩),
        (.ParticleContext, ⟨.unsigned, "spawn_range_count"⟩) ] ∧
    countFields .metal = countFields .host ∧
    (∀ c, ∀ sf ∈ countFields c,
      typeInfo .host sf.2.ty = some ⟨4, 4, [(.unsigned, 0)], []⟩ ∧
      typeInfo .metal sf.2.ty = some ⟨4, 4, [(.unsigned, 0)], []⟩) ∧
    (∀ v : Nat, (Value.unsigned v).inRange ↔ v < 4294967296) ∧
    (∀ v : Nat, v < 4294967296 → decode .unsigned (encode (.unsigned v)) = .unsigned v) ∧
    (∀ bs : List Nat, bs.length = 4 → (∀ b ∈ bs, b < 256) →
      ∃ v, v < 4294967296 ∧ decode .unsigned bs = .unsigned v) := by
  refine ⟨by decide, by decide, ?_, ?_, ?_, ?_⟩
  · intro c
    cases c <;> decide
  · intro v
    simp [Value.inRange, bitWidth, scalarSize]
  · intro v hv
    exact decode_encode (.unsigned v) (by simpa [Value.inRange, bitWidth, scalarSize] using hv)
  · intro bs hl hb
    refine ⟨ofLeBytes bs, ?_, rfl⟩
    have := ofLeBytes_lt bs hb
    rw [hl] at this
    simpa using this

/-- C6: for each of the four structs and every well-typed value of it, writing the
scalars at the host layout's offsets into any buffer of `sizeof` bytes and reading
them back at the shader layout's offsets yields the original value; writing the
value read back into any other buffer of that size, with either layout, yields
the same bytes, so every byte of the image is determined by the value; and the
image has `sizeof` bytes. -/
theorem host_device_roundtrip (s : TypeName) (hs : s ∈ sharedStructs) (vs : List Value)
    (buf buf1 : List Nat) (hv : WellTyped (scalarsOf .host s) vs)
    (hb : sizeof .host s = some buf.length) (hb1 : sizeof .host s = some buf1.length) :
    readStruct .metal s (writeStruct .host s vs buf) = vs ∧
    (∀ c, writeStruct c s (readStruct .metal s (writeStruct .host s vs buf)) buf1 =
      writeStruct .host s vs buf) ∧
    (writeStruct .host s vs buf).length = buf.length := by
  obtain ⟨ti, hti, _, _, _, ht, hsz⟩ := shared_struct_info .host s hs
  have htm : typeInfo .metal s = some ti := by rw [← shared_typeInfo_eq s hs, hti]
  have hsc : ∀ c, scalarsOf c s = ti.scalars := by
    intro c
    cases c
    · simp [scalarsOf, hti]
    · simp [scalarsOf, htm]
  have hlen : buf.length = scalarBytes ti.scalars := by
    simp only [sizeof, hti, Option.map_some', Option.some.injEq] at hb
    omega
  have hlen1 : buf1.length = scalarBytes ti.scalars := by
    simp only [sizeof, hti, Option.map_some', Option.some.injEq] at hb1
    omega
  rw [hsc] at hv
  have hw : writeStruct .host s vs buf = vs.flatMap encode := by
    rw [writeStruct, hsc]
    exact writeScalars_image _ _ _ ht hv hlen
  have hr : readStruct .metal s (vs.flatMap encode) = vs := by
    rw [readStruct, hsc]
    exact readScalars_image _ _ ht hv
  refine ⟨by rw [hw, hr], ?_, ?_⟩
  · intro c
    rw [hw, hr, writeStruct, hsc]
    exact writeScalars_image _ _ _ ht hv hlen1
  · rw [hw, flatMap_encode_length _ _ hv, hlen]

/-- Instance of C6: an `AParticle` written over a zeroed buffer and re-written
over a buffer of `0xFF` bytes. -/
theorem host_device_roundtrip_witness :
    TypeName.AParticle ∈ sharedStructs ∧
    WellTyped (scalarsOf .host .AParticle) (particleWith 0x40A00000) ∧
    sizeof .host .AParticle = some (List.replicate 16 0).length ∧
    sizeof .host .AParticle = some (List.replicate 16 255).length ∧
    (readStruct .metal .AParticle
        (writeStruct .host .AParticle (particleWith 0x40A00000) (List.replicate 16 0)) =
      particleWith 0x40A00000 ∧
    (∀ c, writeStruct c .AParticle (readStruct .metal .AParticle
        (writeStruct .host .AParticle (particleWith 0x40A00000) (List.replicate 16 0)))
        (List.replicate 16 255) =
      writeStruct .host .AParticle (particleWith 0x40A00000) (List.replicate 16 0)) ∧
    (writeStruct .host .AParticle (particleWith 0x40A00000) (List.replicate 16 0)).length =
      (List.replicate 16 0).length) :=
  ⟨by decide, by decide, by decide, by decide,
    host_device_roundtrip .AParticle (by decide) (particleWith 0x40A00000)
      (List.replicate 16 0) (List.replicate 16 255) (by decide) (by decide) (by decide)⟩

/-- C7, as stated, fails: the header admits a `ParticleContext` with
`number_particles = 10`, `spawn_range_start = 8`, `spawn_range_count = 5`, a
well-typed value in both layouts for which `8 + 5 <= 10` is false. -/
theorem spawn_range_not_enforced :
    WellTyped (scalarsOf .host .ParticleContext) (contextWith 0x3C888889 10 8 5) ∧
    WellTyped (scalarsOf .metal .ParticleContext) (contextWith 0x3C888889 10 8 5) ∧
    getUnsigned .host .ParticleContext "number_particles" (contextWith 0x3C888889 10 8 5) =
      some 10 ∧
    getUnsigned .host .ParticleContext "spawn_range_start" (contextWith 0x3C888889 10 8 5) =
      some 8 ∧
    getUnsigned .host .ParticleContext "spawn_range_count" (contextWith 0x3C888889 10 8 5) =
      some 5 ∧
    spawnRangeInBounds .host (contextWith 0x3C888889 10 8 5) = false ∧
    spawnRangeInBounds .metal (contextWith 0x3C888889 10 8 5) = false := by
  decide

/-- C7, amended: the header places no constraint on the three fields. For any
three unsigned 32-bit values there is a well-typed `ParticleContext` holding
them as `number_particles`, `spawn_range_start` and `spawn_range_count`, and the
relation `spawn_range_start + spawn_range_count <= number_particles` holds of
that context exactly when the three values were chosen to satisfy it. -/
theorem spawn_range_is_producer_obligation (c : Context) (n s k : Nat)
    (hn : n < 2 ^ 32) (hs : s < 2 ^ 32) (hk : k < 2 ^ 32) :
    ∃ ctx, WellTyped (scalarsOf c .ParticleContext) ctx ∧
      getUnsigned c .ParticleContext "number_particles" ctx = some n ∧
      getUnsigned c .ParticleContext "spawn_range_start" ctx = some s ∧
      getUnsigned c .ParticleContext "spawn_range_count" ctx = some k ∧
      (spawnRangeInBounds c ctx = true ↔ s + k ≤ n) := by
  have hsc : scalarsOf c .ParticleContext = scalarsOf .host .ParticleContext := by
    cases c <;> decide
  have hslot : ∀ name, fieldSlot c .ParticleContext name =
      fieldSlot .host .ParticleContext name := by
    intro name
    have : typeInfo c .ParticleContext = typeInfo .host .ParticleContext := by
      cases c <;> decide
    simp [fieldSlot, this]
  refine ⟨contextWith 0 n s k, ?_, ?_, ?_, ?_, ?_⟩
  · rw [hsc]
    have h0 : scalarsOf .host .ParticleContext =
        [ (.float, 0), (.float, 4), (.float, 8), (.float, 12), (.float, 16), (.float, 20),
          (.float, 24), (.float, 28), (.float, 32), (.int, 36), (.int, 40), (.int, 44),
          (.unsigned, 48), (.unsigned, 52), (.unsigned, 56), (.float, 60), (.float, 64),
          (.float, 68), (.float, 72) ] := by decide
    rw [h0]
    simp [WellTyped, contextWith, Value.kind, Value.inRange, bitWidth, scalarSize]
    omega
  · simp only [getUnsigned, getField, hslot]; rfl
  · simp only [getUnsigned, getField, hslot]; rfl
  · simp only [getUnsigned, getField, hslot]; rfl
  · have : spawnRangeInBounds c (contextWith 0 n s k) = decide (s + k ≤ n) := by
      simp only [spawnRangeInBounds, getUnsigned, getField, hslot]; rfl
    simp [this]

/-- Instance of the amended C7 with an in-bounds spawn window. -/
theorem spawn_range_is_producer_obligation_witness :
    (100 : Nat) < 2 ^ 32 ∧ (90 : Nat) < 2 ^ 32 ∧ (10 : Nat) < 2 ^ 32 ∧
    ∃ ctx, WellTyped (scalarsOf .metal .ParticleContext) ctx ∧
      getUnsigned .metal .ParticleContext "number_particles" ctx = some 100 ∧
      getUnsigned .metal .ParticleContext "spawn_range_start" ctx = some 90 ∧
      getUnsigned .metal .ParticleContext "spawn_range_count" ctx = some 10 ∧
      (spawnRangeInBounds .metal ctx = true ↔ 90 + 10 ≤ 100) :=
  ⟨by decide, by decide, by decide,
    spawn_range_is_producer_obligation .metal 100 90 10 (by decide) (by decide) (by decide)⟩

/-- C9: in either compilation context `sizeof` is 32, 12, 76 and 16 for
`ParticleVertex`, `InstanceDescriptor`, `ParticleContext` and `AParticle`, each
with alignment 4; each size is a multiple of the alignment, the last member ends
exactly at `sizeof` (no tail padding), and in an array, where each element is
placed at the first aligned byte after the data of the previous one, element
`i` starts at byte `i * sizeof`. -/
theorem concrete_layout (c : Context) :
    sizeof c .ParticleVertex = some 32 ∧
    sizeof c .InstanceDescriptor = some 12 ∧
    sizeof c .ParticleContext = some 76 ∧
    sizeof c .AParticle = some 16 ∧
    (∀ s ∈ sharedStructs, alignof c s = some 4) ∧
    (∀ s ∈ sharedStructs, ∀ ti, typeInfo c s = some ti →
      ti.size % ti.align = 0 ∧ dataEnd ti = ti.size ∧
      ∀ i, elemOffset ti i = i * ti.size) := by
  refine ⟨by cases c <;> decide, by cases c <;> decide, by cases c <;> decide,
    by cases c <;> decide, by cases c <;> decide, ?_⟩
  intro s hs ti hti
  obtain ⟨ti1, hti1, h1, h2, h3, _, _⟩ := shared_struct_info c s hs
  rw [hti] at hti1
  cases hti1
  exact ⟨h3, h1, elemOffset_eq ti h1 h2 h3⟩


/-! ## Lifetime decay in binary32 -/

theorem roundMag_lt (n : Nat) : roundMag n < 2 ^ 31 := by
  have key : ∀ bits : Nat, (if 255 * 2 ^ 23 ≤ bits then 255 * 2 ^ 23 else bits) < 2 ^ 31 := by
    intro bits
    split <;> omega
  exact key _

theorem f32sub_lt (a b : Nat) (ha : a < 2 ^ 32) (hb : b < 2 ^ 32) : f32sub a b < 2 ^ 32 := by
  unfold f32sub
  have hr := roundMag_lt
  split
  · simp [quietNaN]
  · split
    · split
      · simp [quietNaN]
      · exact ha
    · split
      · unfold negate signBit
        split <;> omega
      · simp only
        split
        · split <;> simp [negZero, posZero]
        · split
          · have := hr (scaled a - scaled b).natAbs
            omega
          · have := hr (scaled a - scaled b).natAbs
            omega

theorem f32lt_key (a b : Nat) (h : f32lt a b = true) :
    isNaN a = false ∧ isNaN b = false ∧ f32key a < f32key b := by
  simpa [f32lt, and_assoc] using h

theorem f32key_lt (b : Nat) : f32key b < 2 ^ 31 := by
  unfold f32key
  have : b % 2 ^ 31 < 2 ^ 31 := Nat.mod_lt _ (by decide)
  split <;> omega

theorem f32key_pos (l : Nat) (h1 : isNaN l = false) (h2 : f32le l posZero = false) :
    0 < f32key l := by
  have hz : isNaN posZero = false := by decide
  have hk : f32key posZero = 0 := by decide
  simp only [f32le, h1, hz, hk, Bool.not_false, Bool.true_and, decide_eq_false_iff_not,
    not_le] at h2
  exact h2

theorem lifetimeLt_key (q p : List Value) (h : lifetimeLt q p = true) :
    lifeKey q < lifeKey p ∧ (isDead p = false → 0 < lifeKey p) := by
  unfold lifetimeLt at h
  unfold lifeKey isDead
  cases hq : getFloat .metal .AParticle "lifetime" q with
  | none => simp [hq] at h
  | some a =>
    cases hp : getFloat .metal .AParticle "lifetime" p with
    | none => simp [hq, hp] at h
    | some b =>
      simp only [hq, hp] at h
      obtain ⟨_, hb, hlt⟩ := f32lt_key a b h
      exact ⟨hlt, fun hd => f32key_pos b hb hd⟩

theorem lifeKey_lt (p : List Value) : lifeKey p < 2 ^ 31 := by
  unfold lifeKey
  split
  · exact f32key_lt _
  · decide

theorem wellTyped_getElem (ss : List (Scalar × Nat)) (vs : List Value) (hv : WellTyped ss vs) :
    ∀ (i : Nat) (v : Value), vs[i]? = some v → v.inRange := by
  induction hv with
  | nil => intro i v h; simp at h
  | cons h1 _ ih =>
    intro i v h
    cases i with
    | zero =>
      simp only [List.getElem?_cons_zero, Option.some.injEq] at h
      rw [← h]
      exact h1.2
    | succ i =>
      simp only [List.getElem?_cons_succ] at h
      exact ih i v h

theorem wellTyped_set (ss : List (Scalar × Nat)) (vs : List Value) (hv : WellTyped ss vs) :
    ∀ (i : Nat) (v : Value), (∀ s, ss[i]? = some s → v.kind = s.1) → v.inRange →
      WellTyped ss (vs.set i v) := by
  induction hv with
  | nil => intro i v _ _; exact List.Forall₂.nil
  | cons h1 hrest ih =>
    intro i v hk hr
    cases i with
    | zero =>
      exact List.Forall₂.cons ⟨hk _ (by simp), hr⟩ hrest
    | succ i =>
      exact List.Forall₂.cons h1 (ih i v (fun s hs => hk s (by simpa using hs)) hr)

theorem decayStep_wellTyped (ctx p : List Value)
    (hp : WellTyped (scalarsOf .metal .AParticle) p)
    (hc : WellTyped (scalarsOf .metal .ParticleContext) ctx) :
    WellTyped (scalarsOf .metal .AParticle) (decayStep ctx p) := by
  unfold decayStep
  cases hd : getFloat .metal .ParticleContext "time_delta" ctx with
  | none => exact hp
  | some d =>
    cases hl : getFloat .metal .AParticle "lifetime" p with
    | none => exact hp
    | some l =>
      simp only
      have hslotc : fieldSlot .metal .ParticleContext "time_delta" = some 1 := by decide
      have hslotp : fieldSlot .metal .AParticle "lifetime" = some 3 := by decide
      have hdr : d < 2 ^ 32 := by
        simp only [getFloat, getField, hslotc, Option.some_bind] at hd
        cases hv : ctx[1]? with
        | none => simp [hv] at hd
        | some v =>
          have := wellTyped_getElem _ _ hc 1 v hv
          cases v <;> simp [hv] at hd
          subst hd
          simpa [Value.inRange, bitWidth, scalarSize] using this
      have hlr : l < 2 ^ 32 := by
        simp only [getFloat, getField, hslotp, Option.some_bind] at hl
        cases hv : p[3]? with
        | none => simp [hv] at hl
        | some v =>
          have := wellTyped_getElem _ _ hp 3 v hv
          cases v <;> simp [hv] at hl
          subst hl
          simpa [Value.inRange, bitWidth, scalarSize] using this
      simp only [setField, hslotp]
      apply wellTyped_set _ _ hp
      · intro s hs
        have h3 : (scalarsOf .metal .AParticle)[3]? = some (Scalar.float, 12) := by decide
        rw [h3] at hs
        cases hs
        rfl
      · have := f32sub_lt l d hlr hdr
        simpa [Value.inRange, bitWidth, scalarSize] using this

theorem decay_wellTyped (ctx p : List Value)
    (hp : WellTyped (scalarsOf .metal .AParticle) p)
    (hc : WellTyped (scalarsOf .metal .ParticleContext) ctx) (n : Nat) :
    WellTyped (scalarsOf .metal .AParticle) (decay ctx p n) := by
  induction n with
  | zero => exact hp
  | succ n ih => exact decayStep_wellTyped ctx _ ih hc

theorem decay_fixed (ctx p : List Value) (h : decayStep ctx p = p) (n : Nat) :
    decay ctx p n = p := by
  induction n with
  | zero => rfl
  | succ n ih => rw [decay, ih, h]


/-! ## Rounding lemmas -/

theorem excessBits_spec (fuel : Nat) : ∀ n, n < 2 ^ 24 * 2 ^ fuel →
    n / 2 ^ excessBits fuel n < 2 ^ 24 ∧
    (0 < excessBits fuel n → 2 ^ 23 ≤ n / 2 ^ excessBits fuel n) := by
  induction fuel with
  | zero =>
    intro n hn
    simp only [excessBits, Nat.pow_zero, Nat.div_one]
    omega
  | succ f ih =>
    intro n hn
    have hn1 : n < 2 ^ 24 * (2 ^ f * 2) := by rw [← Nat.pow_succ]; exact hn
    by_cases hlt : n < 2 ^ 24
    · have hz : excessBits (f + 1) n = 0 := by rw [excessBits, if_pos hlt]
      rw [hz, Nat.pow_zero, Nat.div_one]
      omega
    · have h := ih (n / 2) (by omega)
      have hdiv : n / 2 ^ (excessBits f (n / 2) + 1) = n / 2 / 2 ^ excessBits f (n / 2) := by
        rw [Nat.pow_succ', Nat.div_div_eq_div_mul]
      have hs : excessBits (f + 1) n = excessBits f (n / 2) + 1 := by
        rw [excessBits, if_neg hlt]
      rw [hs, hdiv]
      refine ⟨h.1, fun _ => ?_⟩
      by_cases h0 : 0 < excessBits f (n / 2)
      · exact h.2 h0
      · have hz : excessBits f (n / 2) = 0 := by omega
        rw [hz, Nat.pow_zero, Nat.div_one]
        omega

theorem excessBits_self (n : Nat) :
    n / 2 ^ excessBits n n < 2 ^ 24 ∧
    (0 < excessBits n n → 2 ^ 23 ≤ n / 2 ^ excessBits n n) := by
  apply excessBits_spec
  have h1 : n < 2 ^ n := Nat.lt_two_pow n
  have h2 : 0 < 2 ^ n := Nat.two_pow_pos _
  omega

theorem shift_le (n s t : Nat) (hs : n / 2 ^ s < 2 ^ 24) (ht : 0 < t → 2 ^ 23 ≤ n / 2 ^ t) :
    t ≤ s := by
  by_contra hcon
  have hts : s + 1 ≤ t := by omega
  have h1 : n < 2 ^ 24 * 2 ^ s := (Nat.div_lt_iff_lt_mul (Nat.two_pow_pos _)).mp hs
  have h2 : 2 ^ 23 * 2 ^ t ≤ n :=
    (Nat.le_div_iff_mul_le (Nat.two_pow_pos _)).mp (ht (by omega))
  have h3 : 2 ^ (s + 1) ≤ 2 ^ t := Nat.pow_le_pow_right (by decide) hts
  rw [Nat.pow_succ] at h3
  omega

theorem excessBits_mono (n m : Nat) (h : n ≤ m) : excessBits n n ≤ excessBits m m := by
  apply shift_le n
  · exact Nat.lt_of_le_of_lt (Nat.div_le_div_right h) (excessBits_self m).1
  · exact (excessBits_self n).2

theorem excessBits_eq (n s : Nat) (hs : n / 2 ^ s < 2 ^ 24) (ht : 0 < s → 2 ^ 23 ≤ n / 2 ^ s) :
    excessBits n n = s :=
  Nat.le_antisymm (shift_le n s _ hs (excessBits_self n).2)
    (shift_le n _ s (excessBits_self n).1 ht)

theorem roundMag_mono (n m : Nat) (h : n ≤ m) : roundMag n ≤ roundMag m := by
  have hn := excessBits_self n
  have hm := excessBits_self m
  have hsh := excessBits_mono n m h
  unfold roundMag
  simp only []
  generalize excessBits n n = a at hn hsh ⊢
  generalize excessBits m m = b at hm hsh ⊢
  rcases Nat.lt_or_eq_of_le hsh with hlt | heq
  · have hqm := hm.2 (by omega)
    have hqn := hn.1
    split_ifs <;> omega
  · subst heq
    have hq : n / 2 ^ a ≤ m / 2 ^ a := Nat.div_le_div_right h
    have hdn := Nat.div_add_mod n (2 ^ a)
    have hdm := Nat.div_add_mod m (2 ^ a)
    by_cases hqe : n / 2 ^ a = m / 2 ^ a
    · rw [hqe] at hdn ⊢
      have hr : n % 2 ^ a ≤ m % 2 ^ a := by omega
      split_ifs <;> omega
    · have hq1 : n / 2 ^ a + 1 ≤ m / 2 ^ a := by omega
      split_ifs <;> omega

theorem fields_of_bits (e f : Nat) (he : e < 256) (hf : f < 2 ^ 23) :
    signBit (e * 2 ^ 23 + f) = 0 ∧ expoField (e * 2 ^ 23 + f) = e ∧
    fracField (e * 2 ^ 23 + f) = f := by
  unfold signBit expoField fracField
  omega

theorem bits_split (b : Nat) (hb : b < 2 ^ 31) :
    ∃ e f, e < 256 ∧ f < 2 ^ 23 ∧ b = e * 2 ^ 23 + f :=
  ⟨b / 2 ^ 23, b % 2 ^ 23, by omega, by omega, by omega⟩

theorem magnitude_of_bits (e f : Nat) (he : e < 256) (hf : f < 2 ^ 23) :
    magnitude (e * 2 ^ 23 + f) = if e = 0 then f else (2 ^ 23 + f) * 2 ^ (e - 1) := by
  obtain ⟨_, h2, h3⟩ := fields_of_bits e f he hf
  unfold magnitude
  rw [h2, h3]

theorem roundMag_le (n : Nat) : roundMag n ≤ 255 * 2 ^ 23 := by
  have key : ∀ bits : Nat, (if 255 * 2 ^ 23 ≤ bits then 255 * 2 ^ 23 else bits) ≤ 255 * 2 ^ 23 := by
    intro bits
    split <;> omega
  exact key _

theorem roundMag_of_bits (e f : Nat) (he : e < 255) (hf : f < 2 ^ 23) :
    roundMag (magnitude (e * 2 ^ 23 + f)) = e * 2 ^ 23 + f := by
  rw [magnitude_of_bits e f (by omega) hf]
  by_cases h0 : e = 0
  · subst h0
    have hsh : excessBits f f = 0 := excessBits_eq f 0 (by simp; omega) (by omega)
    have hc : ¬ (2 ^ (0 - 1) < 0 ∨ 0 = 2 ^ (0 - 1) ∧ f % 2 = 1) := by simp
    simp only [if_true, roundMag, hsh, Nat.pow_zero, Nat.div_one, Nat.mod_one, Nat.zero_mul,
      Nat.zero_add]
    rw [if_neg hc, if_neg (by omega)]
  · rw [if_neg h0]
    have hpos : 0 < 2 ^ (e - 1) := Nat.two_pow_pos _
    have hdiv : (2 ^ 23 + f) * 2 ^ (e - 1) / 2 ^ (e - 1) = 2 ^ 23 + f :=
      Nat.mul_div_cancel _ hpos
    have hmod : (2 ^ 23 + f) * 2 ^ (e - 1) % 2 ^ (e - 1) = 0 := Nat.mul_mod_left _ _
    have hsh : excessBits ((2 ^ 23 + f) * 2 ^ (e - 1)) ((2 ^ 23 + f) * 2 ^ (e - 1)) = e - 1 :=
      excessBits_eq _ (e - 1) (by rw [hdiv]; omega) (by intro _; rw [hdiv]; omega)
    have hhalf : 0 < 2 ^ (e - 1 - 1) := Nat.two_pow_pos _
    have hc : ¬ (2 ^ (e - 1 - 1) < 0 ∨ 0 = 2 ^ (e - 1 - 1) ∧ (2 ^ 23 + f) % 2 = 1) := by omega
    simp only [roundMag, hsh, hdiv, hmod]
    rw [if_neg hc, if_neg (by omega)]
    omega

theorem pred_gap (x : Nat) (h0 : 0 < x) (hx : x < 255 * 2 ^ 23) :
    magnitude x ≤ magnitude (x - 1) + ulp x := by
  obtain ⟨e, f, he, hf, rfl⟩ := bits_split x (by omega)
  have hu : ulp (e * 2 ^ 23 + f) = 2 ^ (e - 1) := by
    unfold ulp
    rw [(fields_of_bits e f he hf).2.1]
  rw [hu, magnitude_of_bits e f he hf]
  by_cases hf0 : f = 0
  · subst hf0
    have he1 : 1 ≤ e := by omega
    have hpred : e * 2 ^ 23 + 0 - 1 = (e - 1) * 2 ^ 23 + (2 ^ 23 - 1) := by omega
    rw [hpred, magnitude_of_bits (e - 1) (2 ^ 23 - 1) (by omega) (by omega), if_neg (by omega)]
    by_cases he2 : e - 1 = 0
    · rw [if_pos he2, he2]
      omega
    · rw [if_neg he2]
      have hp : 2 ^ (e - 1) = 2 * 2 ^ (e - 1 - 1) := by
        rw [← Nat.pow_succ']
        congr 1
        omega
      rw [hp]
      omega
  · have hpred : e * 2 ^ 23 + f - 1 = e * 2 ^ 23 + (f - 1) := by omega
    rw [hpred, magnitude_of_bits e (f - 1) he (by omega)]
    by_cases he0 : e = 0
    · rw [if_pos he0, if_pos he0, he0]
      simp
      omega
    · rw [if_neg he0, if_neg he0]
      have h1 : 2 ^ 23 + f = (2 ^ 23 + (f - 1)) + 1 := by omega
      rw [h1, Nat.add_mul, Nat.one_mul]

theorem ulp_mono (x y : Nat) (h : x ≤ y) (hy : y < 2 ^ 31) : ulp x ≤ ulp y := by
  unfold ulp expoField
  apply Nat.pow_le_pow_right (by decide)
  omega

theorem isNaN_of_le (m : Nat) (h : m ≤ 255 * 2 ^ 23) : isNaN m = false := by
  have : ¬ (m / 2 ^ 23 % 256 = 255 ∧ m % 2 ^ 23 ≠ 0) := by omega
  simpa [isNaN, expoField, fracField] using this

theorem isNaN_neg_of_le (m : Nat) (h : m ≤ 255 * 2 ^ 23) : isNaN (2 ^ 31 + m) = false := by
  have : ¬ ((2 ^ 31 + m) / 2 ^ 23 % 256 = 255 ∧ (2 ^ 31 + m) % 2 ^ 23 ≠ 0) := by omega
  simpa [isNaN, expoField, fracField] using this

theorem f32sub_step (x d : Nat) (hx0 : 0 < x) (hx : x < 255 * 2 ^ 23) (hd0 : 0 < d)
    (hd : d ≤ 255 * 2 ^ 23) (hulp : ulp x ≤ magnitude d) :
    f32sub x d < 2 ^ 32 ∧ isNaN (f32sub x d) = false ∧
    (signBit (f32sub x d) = 1 ∨ f32sub x d < x) := by
  have hnx : isNaN x = false := isNaN_of_le x (by omega)
  have hnd : isNaN d = false := isNaN_of_le d hd
  have hix : isInf x = false := by
    have : ¬ (x / 2 ^ 23 % 256 = 255 ∧ x % 2 ^ 23 = 0) := by omega
    simpa [isInf, expoField, fracField] using this
  have hsx : signBit x = 0 := by unfold signBit; omega
  have hsd : signBit d = 0 := by unfold signBit; omega
  by_cases hinf : d = 255 * 2 ^ 23
  · subst hinf
    have hr : f32sub x (255 * 2 ^ 23) = 2 ^ 31 + 255 * 2 ^ 23 := by
      have hid : isInf (255 * 2 ^ 23) = true := by decide
      simp only [f32sub, hnx, hnd, hix, hid, negate, hsd]
      simp
    rw [hr]
    exact ⟨by omega, by decide, Or.inl (by decide)⟩
  · have hid : isInf d = false := by
      have : ¬ (d / 2 ^ 23 % 256 = 255 ∧ d % 2 ^ 23 = 0) := by omega
      simpa [isInf, expoField, fracField] using this
    have hscx : scaled x = (magnitude x : Int) := by simp [scaled, hsx]
    have hscd : scaled d = (magnitude d : Int) := by simp [scaled, hsd]
    have hgap := pred_gap x hx0 hx
    have hpredbits : roundMag (magnitude (x - 1)) = x - 1 := by
      obtain ⟨e, f, he, hf, hb⟩ := bits_split (x - 1) (by omega)
      rw [hb]
      exact roundMag_of_bits e f (by omega) hf
    have hform : f32sub x d =
        if (magnitude x : Int) - magnitude d = 0 then posZero
        else if (magnitude x : Int) - magnitude d < 0 then
          2 ^ 31 + roundMag ((magnitude x : Int) - magnitude d).natAbs
        else roundMag ((magnitude x : Int) - magnitude d).natAbs := by
      simp [f32sub, hnx, hnd, hix, hid, hscx, hscd, hsx]
    rw [hform]
    split
    · exact ⟨by simp [posZero], by decide, Or.inr (by simpa [posZero] using hx0)⟩
    · split
      · have h1 := roundMag_lt ((magnitude x : Int) - magnitude d).natAbs
        have h2 := roundMag_le ((magnitude x : Int) - magnitude d).natAbs
        refine ⟨by omega, isNaN_neg_of_le _ h2, Or.inl ?_⟩
        unfold signBit
        omega
      · have hle : ((magnitude x : Int) - magnitude d).natAbs ≤ magnitude (x - 1) := by omega
        have h3 := roundMag_mono _ _ hle
        rw [hpredbits] at h3
        exact ⟨by omega, isNaN_of_le _ (by omega), Or.inr (by omega)⟩

/-! ## Decay of a particle -/

theorem isNaN_iff (b : Nat) : isNaN b = true ↔ (b / 2 ^ 23 % 256 = 255 ∧ b % 2 ^ 23 ≠ 0) := by
  simp [isNaN, expoField, fracField]

theorem isInf_iff (b : Nat) : isInf b = true ↔ (b / 2 ^ 23 % 256 = 255 ∧ b % 2 ^ 23 = 0) := by
  simp [isInf, expoField, fracField]

theorem f32key_nonneg_bits (b : Nat) (hb : b < 2 ^ 31) : f32key b = (b : Int) := by
  have hs : ¬ signBit b = 1 := by unfold signBit; omega
  have hm : b % 2 ^ 31 = b := Nat.mod_eq_of_lt hb
  unfold f32key
  rw [if_neg hs, hm]

theorem f32key_sign (b : Nat) (hs : signBit b = 1) : f32key b ≤ 0 := by
  simp only [f32key, hs, if_true]
  omega

theorem pos_of_f32lt (d : Nat) (hd : d < 2 ^ 32) (h : f32lt posZero d = true) :
    0 < d ∧ d ≤ 255 * 2 ^ 23 := by
  obtain ⟨_, hn, hk⟩ := f32lt_key _ _ h
  have hz : f32key posZero = 0 := by decide
  rw [hz] at hk
  have hs : signBit d ≠ 1 := fun hs => by
    have := f32key_sign d hs
    omega
  have hlt : d < 2 ^ 31 := by
    unfold signBit at hs
    omega
  rw [f32key_nonneg_bits d hlt] at hk
  have hnn : ¬ (d / 2 ^ 23 % 256 = 255 ∧ d % 2 ^ 23 ≠ 0) := by
    rw [← isNaN_iff, hn]
    simp
  omega

theorem pos_of_alive (l : Nat) (hl : l < 2 ^ 32) (hn : isNaN l = false) (hi : isInf l = false)
    (h : f32le l posZero = false) : 0 < l ∧ l < 255 * 2 ^ 23 := by
  have hk := f32key_pos l hn h
  have hs : signBit l ≠ 1 := fun hs => by
    have := f32key_sign l hs
    omega
  have hlt : l < 2 ^ 31 := by
    unfold signBit at hs
    omega
  rw [f32key_nonneg_bits l hlt] at hk
  have hnn : ¬ (l / 2 ^ 23 % 256 = 255 ∧ l % 2 ^ 23 ≠ 0) := by
    rw [← isNaN_iff, hn]
    simp
  have hii : ¬ (l / 2 ^ 23 % 256 = 255 ∧ l % 2 ^ 23 = 0) := by
    rw [← isInf_iff, hi]
    simp
  omega

theorem getFloat_lt (c : Context) (t : TypeName) (name : String) (ss : List (Scalar × Nat))
    (vs : List Value) (b : Nat) (hv : WellTyped ss vs) (h : getFloat c t name vs = some b) :
    b < 2 ^ 32 := by
  unfold getFloat getField at h
  cases hslot : fieldSlot c t name with
  | none => simp [hslot] at h
  | some i =>
    cases hg : vs[i]? with
    | none => simp [hslot, hg] at h
    | some v =>
      have hr := wellTyped_getElem ss vs hv i v hg
      cases v <;> simp [hslot, hg] at h
      subst h
      simpa [Value.inRange, bitWidth, scalarSize] using hr

theorem decayStep_lifetime (ctx p : List Value) (d x : Nat)
    (hp : WellTyped (scalarsOf .metal .AParticle) p)
    (hd : getFloat .metal .ParticleContext "time_delta" ctx = some d)
    (hx : getFloat .metal .AParticle "lifetime" p = some x) :
    getFloat .metal .AParticle "lifetime" (decayStep ctx p) = some (f32sub x d) := by
  have hslot : fieldSlot .metal .AParticle "lifetime" = some 3 := by decide
  have hlen : p.length = 4 := by
    have := List.Forall₂.length_eq hp
    have h4 : (scalarsOf .metal .AParticle).length = 4 := by decide
    omega
  have hstep : decayStep ctx p = p.set 3 (.float (f32sub x d)) := by
    unfold decayStep
    rw [hd, hx]
    simp only [setField, hslot]
  rw [hstep]
  unfold getFloat getField
  rw [hslot, Option.some_bind, List.getElem?_set_self (by omega)]

theorem decayStep_descends (ctx p : List Value) (d x : Nat)
    (hp : WellTyped (scalarsOf .metal .AParticle) p)
    (hd : getFloat .metal .ParticleContext "time_delta" ctx = some d)
    (hx : getFloat .metal .AParticle "lifetime" p = some x)
    (hd0 : 0 < d) (hd1 : d ≤ 255 * 2 ^ 23)
    (hx0 : 0 < x) (hx1 : x < 255 * 2 ^ 23) (hulp : ulp x ≤ magnitude d) :
    lifetimeLt (decayStep ctx p) p = true ∧
    (isDead (decayStep ctx p) = true ∨
      ∃ y, getFloat .metal .AParticle "lifetime" (decayStep ctx p) = some y ∧
        0 < y ∧ y < 255 * 2 ^ 23 ∧ ulp y ≤ magnitude d) := by
  have hr := decayStep_lifetime ctx p d x hp hd hx
  obtain ⟨_, hnan, hcase⟩ := f32sub_step x d hx0 hx1 hd0 hd1 hulp
  have hnx : isNaN x = false := isNaN_of_le x (by omega)
  have hkx : f32key x = (x : Int) := f32key_nonneg_bits x (by omega)
  have hz : isNaN posZero = false := by decide
  have hkz : f32key posZero = 0 := by decide
  simp only [lifetimeLt, isDead, hr, hx, f32lt, f32le, hnan, hnx, hz, hkx, hkz, Bool.not_false,
    Bool.true_and, decide_eq_true_eq]
  rcases hcase with hs | hlt
  · have := f32key_sign _ hs
    exact ⟨by omega, Or.inl (by omega)⟩
  · have hk := f32key_nonneg_bits (f32sub x d) (by omega)
    rw [hk]
    refine ⟨by omega, ?_⟩
    by_cases h0 : f32sub x d = 0
    · exact Or.inl (by omega)
    · exact Or.inr ⟨_, rfl, by omega, by omega,
        Nat.le_trans (ulp_mono _ _ (by omega) (by omega)) hulp⟩

theorem dead_of_descent (ctx p : List Value)
    (hp : WellTyped (scalarsOf .metal .AParticle) p)
    (hc : WellTyped (scalarsOf .metal .ParticleContext) ctx)
    (hstep : ∀ n, (∀ k, k ≤ n → isDead (decay ctx p k) = false) →
      lifetimeLt (decay ctx p (n + 1)) (decay ctx p n) = true) :
    ∃ n, n < 2 ^ 31 ∧ isDead (decay ctx p n) = true ∧
      WellTyped (scalarsOf .metal .AParticle) (decay ctx p n) := by
  by_contra hne
  have halive : ∀ n, n < 2 ^ 31 → isDead (decay ctx p n) = false := by
    intro n hn
    cases h : isDead (decay ctx p n) with
    | false => rfl
    | true => exact absurd ⟨n, hn, h, decay_wellTyped ctx p hp hc n⟩ hne
  have hkey : ∀ n, n < 2 ^ 31 → lifeKey (decay ctx p n) + n ≤ lifeKey (decay ctx p 0) := by
    intro n
    induction n with
    | zero => intro _; simp
    | succ n ih =>
      intro hn
      have h1 := ih (by omega)
      have h2 := (lifetimeLt_key _ _
        (hstep n (fun k hk => halive k (by omega)))).1
      push_cast
      omega
  have hlast := hstep 2147483647 (fun k hk => halive k (by omega))
  have hpos := (lifetimeLt_key _ _ hlast).2 (halive 2147483647 (by omega))
  have hsum := hkey 2147483647 (by omega)
  have hbound := lifeKey_lt (decay ctx p 0)
  push_cast at hsum
  omega

theorem decay_invariant (ctx p : List Value) (l d : Nat)
    (hp : WellTyped (scalarsOf .metal .AParticle) p)
    (hc : WellTyped (scalarsOf .metal .ParticleContext) ctx)
    (hl : getFloat .metal .AParticle "lifetime" p = some l)
    (hd : getFloat .metal .ParticleContext "time_delta" ctx = some d)
    (hpos : f32lt posZero d = true)
    (hfin : isNaN l = false ∧ isInf l = false)
    (hulp : ulp l ≤ magnitude d) (n : Nat)
    (halive : ∀ k, k ≤ n → isDead (decay ctx p k) = false) :
    ∃ y, getFloat .metal .AParticle "lifetime" (decay ctx p n) = some y ∧
      0 < y ∧ y < 255 * 2 ^ 23 ∧ ulp y ≤ magnitude d := by
  obtain ⟨hd0, hd1⟩ := pos_of_f32lt d (getFloat_lt _ _ _ _ _ _ hc hd) hpos
  induction n with
  | zero =>
    have h0 := halive 0 (Nat.le_refl 0)
    simp only [decay, isDead, hl] at h0
    obtain ⟨hl0, hl1⟩ := pos_of_alive l (getFloat_lt _ _ _ _ _ _ hp hl) hfin.1 hfin.2 h0
    exact ⟨l, hl, hl0, hl1, hulp⟩
  | succ n ih =>
    obtain ⟨y, hy, hy0, hy1, hyu⟩ := ih (fun k hk => halive k (by omega))
    have hstep := decayStep_descends ctx (decay ctx p n) d y
      (decay_wellTyped ctx p hp hc n) hd hy hd0 hd1 hy0 hy1 hyu
    rcases hstep.2 with hdead | hnext
    · have := halive (n + 1) (Nat.le_refl _)
      rw [decay] at this
      rw [hdead] at this
      cases this
    · exact hnext

/-- C8, as stated, fails in binary32. With `time_delta = 1.0` a particle whose
`lifetime` is `2 ^ 25` (bits `0x4C000000`) is left unchanged by the decrement,
because `2 ^ 25 - 1` rounds back to `2 ^ 25`; a particle whose `lifetime` is
`+inf` (bits `0x7F800000`) is left unchanged as well. Both are well-typed, the
context has `time_delta > 0`, and `lifetime <= 0` is false after every number
of steps. -/
theorem lifetime_can_stay_positive :
    WellTyped (scalarsOf .metal .ParticleContext) (contextWith 0x3F800000 1 0 1) ∧
    timeDeltaPositive (contextWith 0x3F800000 1 0 1) = true ∧
    WellTyped (scalarsOf .metal .AParticle) (particleWith 0x4C000000) ∧
    (∀ n, isDead (decay (contextWith 0x3F800000 1 0 1) (particleWith 0x4C000000) n) = false) ∧
    WellTyped (scalarsOf .metal .AParticle) (particleWith 0x7F800000) ∧
    (∀ n, isDead (decay (contextWith 0x3F800000 1 0 1) (particleWith 0x7F800000) n) = false) := by
  refine ⟨by decide, by decide, by decide, ?_, by decide, ?_⟩
  · intro n
    rw [decay_fixed _ _ (by decide) n]
    decide
  · intro n
    rw [decay_fixed _ _ (by decide) n]
    decide

/-- C8, amended: for a well-typed `AParticle` whose `lifetime` is finite (neither
a NaN nor an infinity) and a well-typed `ParticleContext` whose `time_delta` is
positive and at least one unit in the last place of `lifetime` (so no
decrement is absorbed by rounding), repeatedly replacing `lifetime` by the
binary32 difference `lifetime - time_delta` makes `lifetime <= 0` after fewer
than `2 ^ 31` steps, and the particle is a well-typed `AParticle` at that point. -/
theorem lifetime_reaches_zero (ctx p : List Value) (l d : Nat)
    (hp : WellTyped (scalarsOf .metal .AParticle) p)
    (hc : WellTyped (scalarsOf .metal .ParticleContext) ctx)
    (hl : getFloat .metal .AParticle "lifetime" p = some l)
    (hd : getFloat .metal .ParticleContext "time_delta" ctx = some d)
    (hpos : f32lt posZero d = true)
    (hfin : isNaN l = false ∧ isInf l = false)
    (hulp : ulp l ≤ magnitude d) :
    ∃ n, n < 2 ^ 31 ∧ isDead (decay ctx p n) = true ∧
      WellTyped (scalarsOf .metal .AParticle) (decay ctx p n) := by
  apply dead_of_descent ctx p hp hc
  intro n halive
  obtain ⟨y, hy, hy0, hy1, hyu⟩ := decay_invariant ctx p l d hp hc hl hd hpos hfin hulp n halive
  obtain ⟨hd0, hd1⟩ := pos_of_f32lt d (getFloat_lt _ _ _ _ _ _ hc hd) hpos
  exact (decayStep_descends ctx (decay ctx p n) d y
    (decay_wellTyped ctx p hp hc n) hd hy hd0 hd1 hy0 hy1 hyu).1

/-- Instance of the amended C8: `lifetime = 5.0` seconds (bits `0x40A00000`) and
`time_delta = 1/60` second (bits `0x3C888889`). -/
theorem lifetime_reaches_zero_witness :
    WellTyped (scalarsOf .metal .AParticle) (particleWith 0x40A00000) ∧
    WellTyped (scalarsOf .metal .ParticleContext) (contextWith 0x3C888889 1 0 1) ∧
    getFloat .metal .AParticle "lifetime" (particleWith 0x40A00000) = some 0x40A00000 ∧
    getFloat .metal .ParticleContext "time_delta" (contextWith 0x3C888889 1 0 1) =
      some 0x3C888889 ∧
    f32lt posZero 0x3C888889 = true ∧
    (isNaN 0x40A00000 = false ∧ isInf 0x40A00000 = false) ∧
    ulp 0x40A00000 ≤ magnitude 0x3C888889 ∧
    ∃ n, n < 2 ^ 31 ∧
      isDead (decay (contextWith 0x3C888889 1 0 1) (particleWith 0x40A00000) n) = true ∧
      WellTyped (scalarsOf .metal .AParticle)
        (decay (contextWith 0x3C888889 1 0 1) (particleWith 0x40A00000) n) :=
  ⟨by decide, by decide, by decide, by decide, by decide, by decide, by decide,
    lifetime_reaches_zero (contextWith 0x3C888889 1 0 1) (particleWith 0x40A00000)
      0x40A00000 0x3C888889 (by decide) (by decide) (by decide) (by decide) (by decide)
      (by decide) (by decide)⟩

end ZitiCore
